import Mathlib

/-!
Verification of the chart-data pipeline in src/server/app.js.

JavaScript numbers are modelled by exact rationals (ℚ); the finite data the
pipeline manipulates (epoch timestamps, prices, window durations) stays well
inside the range where IEEE doubles are exact on the integers involved, and
the non-finite values NaN / +Infinity / -Infinity get their own constructors.
Epoch-millisecond timestamps produced by `Math.round` are integers (ℤ).
-/

attribute [local semireducible] Rat.add Rat.mul Rat.inv Rat.sub

set_option maxRecDepth 8000

/-- The canonical sample produced by normalization: an epoch-milliseconds
timestamp and a finite price, mirroring the `{ timestamp, price_usd }`
objects built by `normalizePoint`. -/
structure Sample where
  timestamp : ℤ
  price_usd : ℚ
deriving DecidableEq, Repr

/-- A JavaScript value as far as the pipeline observes it: `null`,
`undefined`, finite numbers, the non-finite numbers, strings, booleans,
`Date` instances (carrying their epoch milliseconds), arrays and plain
objects (an association list of string keys). -/
inductive JSVal where
  | null
  | jsUndefined
  | nan
  | posInf
  | negInf
  | bool (b : Bool)
  | num (q : ℚ)
  | str (s : String)
  | date (ms : ℤ)
  | arr (elems : List JSVal)
  | obj (fields : List (String × JSVal))

/-- JavaScript truthiness: `null`, `undefined`, `false`, `0`, `NaN` and the
empty string are falsy; every other value, arrays and objects included, is
truthy. -/
def truthy : JSVal → Bool
  | .null => false
  | .jsUndefined => false
  | .nan => false
  | .posInf => true
  | .negInf => true
  | .bool b => b
  | .num q => decide (q ≠ 0)
  | .str s => decide (s ≠ "")
  | .date _ => true
  | .arr _ => true
  | .obj _ => true

/-- Model of `Math.round`: round to the nearest integer, halves toward positive
infinity. -/
def jsRound (q : ℚ) : ℤ := ⌊q + 1 / 2⌋

/-- Characters discarded by `Number(string)` before parsing: ASCII
whitespace, the line terminators, NBSP, the BOM. -/
def jsWhitespace (c : Char) : Bool :=
  c == ' ' || c == '\t' || c == '\n' || c == '\r' ||
  c.toNat == 11 || c.toNat == 12 || c.toNat == 160 ||
  c.toNat == 65279 || c.toNat == 8232 || c.toNat == 8233

/-- Read a maximal run of decimal digits, returning the accumulated value,
the number of digits consumed and the remaining characters. -/
def readDecAux : List Char → ℕ → ℕ → ℕ × ℕ × List Char
  | [], acc, cnt => (acc, cnt, [])
  | c :: cs, acc, cnt =>
    if c.isDigit then readDecAux cs (acc * 10 + (c.toNat - 48)) (cnt + 1)
    else (acc, cnt, c :: cs)

/-- Value of a hexadecimal digit character, if it is one. -/
def hexVal (c : Char) : Option ℕ :=
  if c.isDigit then some (c.toNat - 48)
  else if 'a' ≤ c ∧ c ≤ 'f' then some (c.toNat - 87)
  else if 'A' ≤ c ∧ c ≤ 'F' then some (c.toNat - 55)
  else none

/-- Parse the digits of a `0x` / `0o` / `0b` literal: every remaining
character must be a digit of the base and at least one digit must be
present. -/
def parseRadix (base : ℕ) : List Char → ℕ → ℕ → Option ℚ
  | [], acc, cnt => if cnt = 0 then none else some acc
  | c :: cs, acc, cnt =>
    match hexVal c with
    | some d => if d < base then parseRadix base cs (acc * base + d) (cnt + 1) else none
    | none => none

/-- Parse the exponent that follows the `e` of a decimal literal: an
optional sign then at least one digit, consuming the whole input. -/
def parseExpAux (cs : List Char) : Option ℤ :=
  let sb : ℤ × List Char :=
    match cs with
    | '+' :: r => (1, r)
    | '-' :: r => (-1, r)
    | r => (1, r)
  match readDecAux sb.2 0 0 with
  | (v, cnt, []) => if cnt = 0 then none else some (sb.1 * v)
  | _ => none

/-- Parse an unsigned decimal literal `digits [. digits] [e exp]` exactly as
the StringNumericLiteral grammar behind `Number(string)` does, consuming the
whole input; at least one digit must appear on one side of the point. -/
def parseDecLit (cs : List Char) : Option ℚ :=
  let w := readDecAux cs 0 0
  let fr :=
    match w.2.2 with
    | '.' :: rest => readDecAux rest 0 0
    | _ => (0, 0, w.2.2)
  if w.2.1 = 0 ∧ fr.2.1 = 0 then none
  else
    let mant : ℚ := (w.1 : ℚ) + (fr.1 : ℚ) / (10 : ℚ) ^ fr.2.1
    match fr.2.2 with
    | [] => some mant
    | 'e' :: rest => (parseExpAux rest).map (fun e => mant * (10 : ℚ) ^ e)
    | 'E' :: rest => (parseExpAux rest).map (fun e => mant * (10 : ℚ) ^ e)
    | _ => none

/-- Parse an optionally signed decimal literal; a signed or unsigned
`Infinity` is a valid number but not a finite one, so it yields `none`
exactly like an unparseable string does once `Number.isFinite` has been
applied. -/
def signedDec (cs : List Char) : Option ℚ :=
  let sb : ℚ × List Char :=
    match cs with
    | '+' :: r => (1, r)
    | '-' :: r => (-1, r)
    | r => (1, r)
  if sb.2 = ['I', 'n', 'f', 'i', 'n', 'i', 't', 'y'] then none
  else (parseDecLit sb.2).map (fun q => sb.1 * q)

/-- The composite `Number(string)` / `Number.isFinite` step used by the
normalizers: trims JavaScript whitespace, maps the empty string to `0`,
accepts `0x`/`0o`/`0b` radix literals and signed decimal literals, and
returns `none` whenever the result is `NaN` or infinite. -/
def jsStringToNumber (s : String) : Option ℚ :=
  let cs := ((s.toList.dropWhile jsWhitespace).reverse.dropWhile jsWhitespace).reverse
  match cs with
  | [] => some 0
  | '0' :: c :: rest =>
    if c = 'x' ∨ c = 'X' then parseRadix 16 rest 0 0
    else if c = 'o' ∨ c = 'O' then parseRadix 8 rest 0 0
    else if c = 'b' ∨ c = 'B' then parseRadix 2 rest 0 0
    else signedDec cs
  | _ => signedDec cs

/-- Gregorian leap-year test. -/
def isLeap (y : ℤ) : Bool := (y % 4 == 0 && y % 100 != 0) || y % 400 == 0

/-- Number of days in a month of a given year. -/
def daysInMonth (y : ℤ) (m : ℕ) : ℕ :=
  if m = 2 then (if isLeap y then 29 else 28)
  else if m = 4 ∨ m = 6 ∨ m = 9 ∨ m = 11 then 30
  else 31

/-- Days since 1970-01-01 of a civil date (proleptic Gregorian). -/
def daysFromCivil (y : ℤ) (m d : ℕ) : ℤ :=
  let yy : ℤ := if m ≤ 2 then y - 1 else y
  let era : ℤ := (if 0 ≤ yy then yy else yy - 399) / 400
  let yoe : ℤ := yy - era * 400
  let mp : ℤ := if 2 < m then (m : ℤ) - 3 else (m : ℤ) + 9
  let doy : ℤ := (153 * mp + 2) / 5 + (d : ℤ) - 1
  let doe : ℤ := yoe * 365 + yoe / 4 - yoe / 100 + doy
  era * 146097 + doe - 719468

/-- Read exactly `n` decimal digits. -/
def readNDigits : ℕ → List Char → ℕ → Option (ℕ × List Char)
  | 0, cs, acc => some (acc, cs)
  | n + 1, c :: cs, acc =>
    if c.isDigit then readNDigits n cs (acc * 10 + (c.toNat - 48)) else none
  | _ + 1, [], _ => none

/-- Parse the optional time-of-day tail `THH:MM[:SS[.mmm]]Z` of an ISO 8601
string, returning milliseconds past midnight UTC. -/
def timeOfDayMs (cs : List Char) : Option ℕ := do
  let (hh, r1) ← readNDigits 2 cs 0
  if hh > 23 then none else
  match r1 with
  | ':' :: r2 => do
    let (mi, r3) ← readNDigits 2 r2 0
    if mi > 59 then none else
    let base := hh * 3600000 + mi * 60000
    match r3 with
    | ['Z'] => some base
    | ':' :: r4 => do
      let (ss, r5) ← readNDigits 2 r4 0
      if ss > 59 then none else
      match r5 with
      | ['Z'] => some (base + ss * 1000)
      | '.' :: r6 => do
        let (ms, r7) ← readNDigits 3 r6 0
        match r7 with
        | ['Z'] => some (base + ss * 1000 + ms)
        | _ => none
      | _ => none
    | _ => none
  | _ => none

/-- The `Date.parse` fallback of the timestamp normalizer, modelled on the
unambiguous UTC subset of ISO 8601 the host guarantees: `YYYY-MM-DD`
(interpreted as midnight UTC) optionally followed by `THH:MM[:SS[.mmm]]Z`.
Date-time forms without a `Z` offset are local-time and therefore
environment-dependent; they and all non-ISO calendar formats yield `none`
here. -/
def dateParse (s : String) : Option ℤ := do
  let cs := s.toList
  let (y, r1) ← readNDigits 4 cs 0
  match r1 with
  | '-' :: r2 => do
    let (m, r3) ← readNDigits 2 r2 0
    if m < 1 ∨ 12 < m then none else
    match r3 with
    | '-' :: r4 => do
      let (d, r5) ← readNDigits 2 r4 0
      if d < 1 ∨ daysInMonth y m < d then none else
      let dayMs : ℤ := daysFromCivil y m d * 86400000
      match r5 with
      | [] => some dayMs
      | 'T' :: r6 => do
        let t ← timeOfDayMs r6
        some (dayMs + t)
      | _ => none
    | _ => none
  | _ => none

/-- The numeric branch of `normalizeTimestamp` (src/server/app.js:52-58),
with its four magnitude guards and final else branch kept verbatim. -/
def normalizeTimestampNum (v : ℚ) : ℤ :=
  if v > 10 ^ 14 then jsRound v
  else if v > 10 ^ 12 then jsRound v
  else if v > 10 ^ 10 then jsRound v
  else if v > 10 ^ 9 then jsRound (v * 1000)
  else jsRound (v * 1000)

/-- Function `normalizeTimestamp` (src/server/app.js:49-67): `none` models the `NaN`
result for rejected inputs. A `Date` yields its epoch milliseconds; a finite
number goes through the magnitude classifier; a string is first tried as a
number (recursing into the numeric branch) and then as a date string. -/
def normalizeTimestamp : JSVal → Option ℤ
  | .null => none
  | .jsUndefined => none
  | .date ms => some ms
  | .num v => some (normalizeTimestampNum v)
  | .nan => none
  | .posInf => none
  | .negInf => none
  | .str s =>
    match jsStringToNumber s with
    | some parsed => some (normalizeTimestampNum parsed)
    | none => dateParse s
  | .bool _ => none
  | .arr _ => none
  | .obj _ => none

/-- Function `normalizePrice` (src/server/app.js:69-77): finite numbers pass through,
numeric strings are parsed, everything else is rejected. -/
def normalizePrice : JSVal → Option ℚ
  | .null => none
  | .jsUndefined => none
  | .num v => some v
  | .nan => none
  | .posInf => none
  | .negInf => none
  | .str s => jsStringToNumber s
  | .bool _ => none
  | .date _ => none
  | .arr _ => none
  | .obj _ => none

/-- Property access on a plain object: a missing key reads as `undefined`. -/
def getField (fields : List (String × JSVal)) (name : String) : JSVal :=
  match fields.find? (fun kv => kv.1 == name) with
  | some kv => kv.2
  | none => .jsUndefined

/-- The `??` operator: take the left operand unless it is `null` or
`undefined`. -/
def coalesce (a b : JSVal) : JSVal :=
  match a with
  | .null => b
  | .jsUndefined => b
  | _ => a

/-- The timestamp alias chain of `normalizePoint`
(`point.timestamp ?? point.time ?? point.t ?? point.date ?? point[0]`). -/
def tsAlias (fields : List (String × JSVal)) : JSVal :=
  coalesce (getField fields "timestamp")
    (coalesce (getField fields "time")
      (coalesce (getField fields "t")
        (coalesce (getField fields "date") (getField fields "0"))))

/-- The price alias chain of `normalizePoint` (`point.price_usd ??
point.price ?? point.value ?? point.usd ?? point.p ?? point.close ??
point[1]`). -/
def priceAlias (fields : List (String × JSVal)) : JSVal :=
  coalesce (getField fields "price_usd")
    (coalesce (getField fields "price")
      (coalesce (getField fields "value")
        (coalesce (getField fields "usd")
          (coalesce (getField fields "p")
            (coalesce (getField fields "close") (getField fields "1"))))))

/-- The array branch of `normalizePoint`: destructure `[tsRaw, priceRaw]`
(missing elements read as `undefined`) and require both coercions to
succeed. The recursive call `normalizePoint(point.value)` always lands in
this branch, so it is factored out to keep the recursion structural. -/
def normalizePointArr (elems : List JSVal) : Option Sample :=
  match normalizeTimestamp (elems.getD 0 .jsUndefined), normalizePrice (elems.getD 1 .jsUndefined) with
  | some t, some p => some ⟨t, p⟩
  | _, _ => none

/-- Function `normalizePoint` (src/server/app.js:79-107): falsy inputs are rejected;
arrays are destructured; objects resolve the alias chains, and when the
aliased timestamp is finite but the price is not, a `value` field that is an
array is normalized recursively. -/
def normalizePoint (point : JSVal) : Option Sample :=
  if truthy point = false then none
  else
    match point with
    | .arr elems => normalizePointArr elems
    | .obj fields =>
      match normalizeTimestamp (tsAlias fields), normalizePrice (priceAlias fields) with
      | some t, some p => some ⟨t, p⟩
      | some _, none =>
        match getField fields "value" with
        | .arr inner => normalizePointArr inner
        | _ => none
      | none, _ => none
    | .date _ =>
      match normalizeTimestamp (tsAlias []), normalizePrice (priceAlias []) with
      | some t, some p => some ⟨t, p⟩
      | _, _ => none
    | _ => none

/-- The sort order used by `normalized.sort((a, b) => a.timestamp -
b.timestamp)`: non-strict comparison of timestamps, so that the stable sort
keeps equal-timestamp samples in input order. -/
def tsLE (a b : Sample) : Prop := a.timestamp ≤ b.timestamp

instance : DecidableRel tsLE := fun a b => inferInstanceAs (Decidable (a.timestamp ≤ b.timestamp))

instance : IsTrans Sample tsLE := ⟨fun _ _ _ hab hbc => le_trans hab hbc⟩

instance : IsTotal Sample tsLE := ⟨fun a b => le_total a.timestamp b.timestamp⟩

/-- The strict timestamp order satisfied by a deduplicated series. -/
def tsLT (a b : Sample) : Prop := a.timestamp < b.timestamp

instance : DecidableRel tsLT := fun a b => inferInstanceAs (Decidable (a.timestamp < b.timestamp))

instance : IsTrans Sample tsLT := ⟨fun _ _ _ hab hbc => lt_trans hab hbc⟩

/-- The dedup loop of `normalizePoints` (src/server/app.js:117-125): walk
the sorted list and replace the previously kept sample whenever the next
one has the same timestamp, i.e. drop a sample exactly when its successor
has an equal timestamp. -/
def dedupLast : List Sample → List Sample
  | [] => []
  | [a] => [a]
  | a :: b :: rest =>
    if a.timestamp = b.timestamp then dedupLast (b :: rest)
    else a :: dedupLast (b :: rest)

/-- The body of `normalizePoints` on an actual array: map every raw record
through `normalizePoint` keeping the successes, sort by timestamp with the
engine's stable sort, and collapse equal timestamps keeping the last. -/
def normalizePointsList (points : List JSVal) : List Sample :=
  dedupLast (List.insertionSort tsLE (points.filterMap normalizePoint))

/-- Function `normalizePoints` (src/server/app.js:109-127): a non-array input yields
the empty series. -/
def normalizePoints : JSVal → List Sample
  | .arr l => normalizePointsList l
  | _ => []

/-- The sampling loop of `downsample` (`for (let i = 0; i < points.length;
i += step) sampled.push(points[i])`): the samples at the indices divisible
by `step`, in order. -/
def strideSample (points : List Sample) (step : ℕ) : List Sample :=
  (List.range points.length).filterMap
    (fun i => if i % step = 0 then points.get? i else none)

/-- The push of the last input sample (`if (last && sampled[...] !== last)
sampled.push(last)`): append it unless it already closes the list. -/
def withLast (l : List Sample) (lastPt : Sample) : List Sample :=
  if l.getLast? = some lastPt then l else l ++ [lastPt]

/-- The `ensure` closure of `downsample`: append `pt` unless some kept
sample already has the identical timestamp and price. -/
def ensurePt (l : List Sample) (pt : Sample) : List Sample :=
  if l.any (fun it => it.timestamp == pt.timestamp && it.price_usd == pt.price_usd) then l
  else l ++ [pt]

/-- The `reduce` computing `minPt`: the first sample of minimal price
(seeded, like the JavaScript `reduce` with an initial value, at `init`). -/
def minPt (points : List Sample) (init : Sample) : Sample :=
  points.foldl (fun mn pt => if pt.price_usd < mn.price_usd then pt else mn) init

/-- The `reduce` computing `maxPt`: the first sample of maximal price. -/
def maxPt (points : List Sample) (init : Sample) : Sample :=
  points.foldl (fun mx pt => if mx.price_usd < pt.price_usd then pt else mx) init

/-- Function `downsample` (src/server/app.js:129-152). A series whose length is
within `limit` is returned untouched; otherwise every `step`-th sample
(`step = ceil(length / limit)`) is taken starting at index 0, the last
input sample is appended unless it already closes the sampled list, the
global minimum- and maximum-price samples (computed by `reduce` over the
whole input, seeded with the first sample) are appended unless a kept
sample already carries the identical timestamp and price, and the result
is re-sorted by timestamp. -/
def downsample : List Sample → ℕ → List Sample
  | [], _ => []
  | p0 :: rest, limit =>
    let points := p0 :: rest
    if points.length ≤ limit then points
    else
      let step := (points.length + limit - 1) / limit
      let sampled := strideSample points step
      let sampled₁ := withLast sampled (points.getLast (List.cons_ne_nil p0 rest))
      let sampled₂ := ensurePt sampled₁ (minPt points p0)
      let sampled₃ := ensurePt sampled₂ (maxPt points p0)
      List.insertionSort tsLE sampled₃

/-- Function `applyTimeWindow` (src/server/app.js:154-161). `windowMs` is `none`
for a non-finite duration (the `Infinity` of the unbounded timeframes, or
`NaN`). An empty series returns at once; an unbounded window returns a
copy of the series; otherwise the anchor is the last sample's timestamp
(every `Sample` timestamp is finite by construction; `now` models the
`Date.now()` fallback) and exactly the samples with `timestamp ≥ anchor -
windowMs` survive, in order. -/
def applyTimeWindow (now : ℤ) (points : List Sample) (windowMs : Option ℚ) : List Sample :=
  if points.isEmpty then points
  else
    match windowMs with
    | none => points
    | some w =>
      let anchor : ℤ :=
        match points.getLast? with
        | some s => s.timestamp
        | none => now
      points.filter (fun p => decide ((anchor : ℚ) - w ≤ (p.timestamp : ℚ)))

/-- A `{ windowMs, limit }` entry of `TIMEFRAME_CONFIG`; `windowMs = none`
models `Infinity`. -/
structure TimeframeConfig where
  windowMs : Option ℚ
  limit : ℕ
deriving DecidableEq, Repr

/-- Table `TIMEFRAME_CONFIG` (src/server/app.js:9-18). -/
def TIMEFRAME_CONFIG (key : String) : Option TimeframeConfig :=
  if key = "1h" then some ⟨some 3600000, 120⟩
  else if key = "6h" then some ⟨some 21600000, 150⟩
  else if key = "24h" then some ⟨some 86400000, 200⟩
  else if key = "1y" then some ⟨some 31536000000, 500⟩
  else if key = "1y+" then some ⟨none, 500⟩
  else if key = "long" then some ⟨none, 500⟩
  else if key = "max" then some ⟨none, 500⟩
  else if key = "all" then some ⟨none, 500⟩
  else none

/-- The request handler of `GET /api/chart-data`
(src/server/app.js:163-186) from the timeframe lookup onward, with the
cache contents and the clock passed explicitly: `none` is the 400
"Unsupported timeframe" rejection. The cache is normalized, windowed by
the timeframe's `windowMs`; a windowed result with fewer than 2 samples is
replaced by `normalized.slice(-Math.min(limit, normalized.length))`, the
tail of the full normalized series; the result is downsampled to the
timeframe's limit. -/
def chartDataHandler (now : ℤ) (cached : List JSVal) (timeframe : String) :
    Option (List Sample) :=
  match TIMEFRAME_CONFIG timeframe with
  | none => none
  | some config =>
    let normalized := normalizePointsList cached
    let limit := if 0 < config.limit then config.limit else 500
    let windowed := applyTimeWindow now normalized config.windowMs
    let windowed₁ :=
      if windowed.length < 2 then
        normalized.drop (normalized.length - min limit normalized.length)
      else windowed
    some (downsample windowed₁ limit)

/-- What the `value` of the memoized cache promise contributes to
`loadLongTermData`'s result: `Array.isArray(data) ? data : []`. -/
def toCollection : JSVal → List JSVal
  | .arr l => l
  | _ => []

/-- The `Array.isArray` test. -/
def isArr : JSVal → Bool
  | .arr _ => true
  | _ => false

/-- One observable step of `loadLongTermData` (src/server/app.js:23-35),
with the promise machinery sequentialized: `memo` is the process-wide slot
(`longTermDataPromise`), holding the parsed document of a previously
successful load; `attempt` is the outcome of `fs.readFile` followed by
`JSON.parse`, consulted only when the slot is empty. The call returns the
new state of the slot and the value handed to (or the error thrown at) the
caller; a failed attempt leaves the slot cleared and throws the wrapped
error, a successful attempt fills the slot for the process lifetime and a
non-array document is served as the empty collection. -/
def loadLongTermData (memo : Option JSVal) (attempt : Except String JSVal) :
    Option JSVal × Except String (List JSVal) :=
  match memo with
  | some v => (some v, .ok (toCollection v))
  | none =>
    match attempt with
    | .ok v => (some v, .ok (toCollection v))
    | .error e => (none, .error ("Failed to load historical cache: " ++ e))

/-- The JavaScript object a `Sample` is materialized as in the output of
`normalizePoints`, used to feed a normalized series back into the
normalizer. -/
def Sample.toJS (s : Sample) : JSVal :=
  .obj [("timestamp", .num (s.timestamp : ℚ)), ("price_usd", .num s.price_usd)]

theorem strideSample_length_aux (l : List Sample) (step : ℕ) (hs : 1 ≤ step) :
    ∀ n, n ≤ l.length →
      ((List.range n).filterMap (fun i => if i % step = 0 then l.get? i else none)).length
        = (n + step - 1) / step := by
  intro n
  induction n with
  | zero =>
    intro _
    simp only [List.range_zero, List.filterMap_nil, List.length_nil]
    exact (Nat.div_eq_of_lt (by omega)).symm
  | succ n ih =>
    intro hn
    have hn' : n ≤ l.length := by omega
    have hlt : n < l.length := by omega
    rw [List.range_succ, List.filterMap_append, List.length_append, ih hn']
    have hget : l.get? n = some (l.get ⟨n, hlt⟩) := List.get?_eq_get hlt
    have harith : (n + step) / step = (n + step - 1) / step
        + if step ∣ n + step then 1 else 0 := by
      have h1 := Nat.succ_div (n + step - 1) step
      have h2 : n + step - 1 + 1 = n + step := by omega
      rw [h2] at h1
      exact h1
    have hiff : (step ∣ n + step) ↔ step ∣ n := by
      rw [Nat.add_comm]
      exact Nat.dvd_add_self_left
    have hshift : n + 1 + step - 1 = n + step := by omega
    by_cases hdvd : n % step = 0
    · have hd : step ∣ n + step := hiff.mpr (Nat.dvd_of_mod_eq_zero hdvd)
      simp only [List.filterMap_cons, List.filterMap_nil, hdvd, if_pos rfl, hget]
      rw [hshift, harith, if_pos hd]
      simp
    · have hd : ¬ step ∣ n + step := fun h => hdvd (Nat.mod_eq_zero_of_dvd (hiff.mp h))
      simp only [List.filterMap_cons, List.filterMap_nil, if_neg hdvd, List.length_nil]
      rw [hshift, harith, if_neg hd]

theorem strideSample_length (l : List Sample) (step : ℕ) (hs : 1 ≤ step) :
    (strideSample l step).length = (l.length + step - 1) / step :=
  strideSample_length_aux l step hs l.length le_rfl

theorem strideSample_head (p0 : Sample) (rest : List Sample) (step : ℕ) :
    p0 ∈ strideSample (p0 :: rest) step := by
  unfold strideSample
  refine List.mem_filterMap.mpr ⟨0, ?_, ?_⟩
  · simp
  · simp

theorem strideSample_subset (l : List Sample) (step : ℕ) : strideSample l step ⊆ l := by
  intro x hx
  obtain ⟨i, _, hf⟩ := List.mem_filterMap.mp hx
  by_cases hi : i % step = 0
  · rw [if_pos hi] at hf
    exact List.get?_mem hf
  · rw [if_neg hi] at hf
    cases hf

theorem mem_withLast_self (l : List Sample) (pt : Sample) : pt ∈ withLast l pt := by
  unfold withLast
  split
  · exact List.mem_of_getLast?_eq_some (by assumption)
  · exact List.mem_append_right _ (List.mem_singleton_self _)

theorem mem_withLast_of_mem {l : List Sample} {x : Sample} (pt : Sample) (hx : x ∈ l) :
    x ∈ withLast l pt := by
  unfold withLast
  split
  · exact hx
  · exact List.mem_append_left _ hx

theorem length_withLast_le (l : List Sample) (pt : Sample) :
    (withLast l pt).length ≤ l.length + 1 := by
  unfold withLast
  split
  · omega
  · simp

theorem mem_ensurePt_of_mem {l : List Sample} {x : Sample} (pt : Sample) (hx : x ∈ l) :
    x ∈ ensurePt l pt := by
  unfold ensurePt
  split
  · exact hx
  · exact List.mem_append_left _ hx

theorem length_ensurePt_le (l : List Sample) (pt : Sample) :
    (ensurePt l pt).length ≤ l.length + 1 := by
  unfold ensurePt
  split
  · omega
  · simp

theorem ensurePt_attains (l : List Sample) (pt : Sample) :
    ∃ s ∈ ensurePt l pt, s.timestamp = pt.timestamp ∧ s.price_usd = pt.price_usd := by
  unfold ensurePt
  split
  · next h =>
    obtain ⟨it, hmem, hp⟩ := List.any_eq_true.mp h
    refine ⟨it, hmem, ?_, ?_⟩
    · exact beq_iff_eq.mp (Bool.and_elim_left hp)
    · exact beq_iff_eq.mp (Bool.and_elim_right hp)
  · exact ⟨pt, List.mem_append_right _ (List.mem_singleton_self _), rfl, rfl⟩

theorem minPt_spec (l : List Sample) : ∀ init : Sample,
    (minPt l init = init ∨ minPt l init ∈ l) ∧
    (minPt l init).price_usd ≤ init.price_usd ∧
    ∀ t ∈ l, (minPt l init).price_usd ≤ t.price_usd := by
  induction l with
  | nil =>
    intro init
    exact ⟨Or.inl rfl, le_refl _, by simp⟩
  | cons a l ih =>
    intro init
    have hfold : minPt (a :: l) init
        = minPt l (if a.price_usd < init.price_usd then a else init) := by
      simp [minPt]
    obtain ⟨hmem, hle, hall⟩ := ih (if a.price_usd < init.price_usd then a else init)
    have hinit : (if a.price_usd < init.price_usd then a else init).price_usd
        ≤ init.price_usd := by
      by_cases h : a.price_usd < init.price_usd
      · rw [if_pos h]
        exact le_of_lt h
      · rw [if_neg h]
    have ha : (if a.price_usd < init.price_usd then a else init).price_usd
        ≤ a.price_usd := by
      by_cases h : a.price_usd < init.price_usd
      · rw [if_pos h]
      · rw [if_neg h]
        exact le_of_not_lt h
    refine ⟨?_, ?_, ?_⟩
    · rw [hfold]
      rcases hmem with h | h
      · rw [h]
        by_cases hc : a.price_usd < init.price_usd
        · rw [if_pos hc]
          exact Or.inr (List.mem_cons_self _ _)
        · rw [if_neg hc]
          exact Or.inl rfl
      · exact Or.inr (List.mem_cons_of_mem _ h)
    · rw [hfold]
      exact le_trans hle hinit
    · intro t ht
      rw [hfold]
      rcases List.mem_cons.mp ht with rfl | ht
      · exact le_trans hle ha
      · exact hall t ht

theorem maxPt_spec (l : List Sample) : ∀ init : Sample,
    (maxPt l init = init ∨ maxPt l init ∈ l) ∧
    init.price_usd ≤ (maxPt l init).price_usd ∧
    ∀ t ∈ l, t.price_usd ≤ (maxPt l init).price_usd := by
  induction l with
  | nil =>
    intro init
    exact ⟨Or.inl rfl, le_refl _, by simp⟩
  | cons a l ih =>
    intro init
    have hfold : maxPt (a :: l) init
        = maxPt l (if init.price_usd < a.price_usd then a else init) := by
      simp [maxPt]
    obtain ⟨hmem, hle, hall⟩ := ih (if init.price_usd < a.price_usd then a else init)
    have hinit : init.price_usd
        ≤ (if init.price_usd < a.price_usd then a else init).price_usd := by
      by_cases h : init.price_usd < a.price_usd
      · rw [if_pos h]
        exact le_of_lt h
      · rw [if_neg h]
    have ha : a.price_usd
        ≤ (if init.price_usd < a.price_usd then a else init).price_usd := by
      by_cases h : init.price_usd < a.price_usd
      · rw [if_pos h]
      · rw [if_neg h]
        exact le_of_not_lt h
    refine ⟨?_, ?_, ?_⟩
    · rw [hfold]
      rcases hmem with h | h
      · rw [h]
        by_cases hc : init.price_usd < a.price_usd
        · rw [if_pos hc]
          exact Or.inr (List.mem_cons_self _ _)
        · rw [if_neg hc]
          exact Or.inl rfl
      · exact Or.inr (List.mem_cons_of_mem _ h)
    · rw [hfold]
      exact le_trans hinit hle
    · intro t ht
      rw [hfold]
      rcases List.mem_cons.mp ht with rfl | ht
      · exact le_trans ha hle
      · exact hall t ht

theorem step_pos (n limit : ℕ) (hlim : 1 ≤ limit) (hn : 1 ≤ n) :
    1 ≤ (n + limit - 1) / limit :=
  (Nat.le_div_iff_mul_le (by omega)).mpr (by omega)

theorem stride_count_le (n limit : ℕ) (hlim : 1 ≤ limit) (hlt : limit < n) :
    (n + (n + limit - 1) / limit - 1) / ((n + limit - 1) / limit) ≤ limit := by
  have hspos : 1 ≤ (n + limit - 1) / limit := step_pos n limit hlim (by omega)
  have h1 : n + limit - 1 < (n + limit - 1) / limit * limit + limit :=
    Nat.lt_div_mul_add (by omega)
  have hns : n ≤ (n + limit - 1) / limit * limit := by omega
  rw [Nat.div_le_iff_le_mul_add_pred (by omega)]
  have hcomm : (n + limit - 1) / limit * limit = limit * ((n + limit - 1) / limit) :=
    Nat.mul_comm _ _
  omega

theorem downsample_eq_of_lt (p0 : Sample) (rest : List Sample) (limit : ℕ)
    (h : limit < (p0 :: rest).length) :
    downsample (p0 :: rest) limit =
      List.insertionSort tsLE
        (ensurePt
          (ensurePt
            (withLast (strideSample (p0 :: rest) (((p0 :: rest).length + limit - 1) / limit))
              ((p0 :: rest).getLast (List.cons_ne_nil p0 rest)))
            (minPt (p0 :: rest) p0))
          (maxPt (p0 :: rest) p0)) := by
  simp only [downsample]
  rw [if_neg (not_le.mpr h)]

theorem downsample_eq_of_le (points : List Sample) (limit : ℕ)
    (h : points.length ≤ limit) : downsample points limit = points := by
  cases points with
  | nil => rfl
  | cons p0 rest =>
    simp only [downsample]
    rw [if_pos h]

theorem downsample_length_le (points : List Sample) (limit : ℕ)
    (hlim : 1 ≤ limit) (hlt : limit < points.length) :
    (downsample points limit).length ≤ limit + 3 := by
  cases points with
  | nil => simp at hlt
  | cons p0 rest =>
    rw [downsample_eq_of_lt p0 rest limit hlt]
    rw [List.length_insertionSort]
    have hspos : 1 ≤ ((p0 :: rest).length + limit - 1) / limit :=
      step_pos _ _ hlim (by simp)
    have hstride : (strideSample (p0 :: rest) (((p0 :: rest).length + limit - 1) / limit)).length
        ≤ limit := by
      rw [strideSample_length _ _ hspos]
      exact stride_count_le _ _ hlim hlt
    have h₁ := length_withLast_le
      (strideSample (p0 :: rest) (((p0 :: rest).length + limit - 1) / limit))
      ((p0 :: rest).getLast (List.cons_ne_nil p0 rest))
    have h₂ := length_ensurePt_le
      (withLast (strideSample (p0 :: rest) (((p0 :: rest).length + limit - 1) / limit))
        ((p0 :: rest).getLast (List.cons_ne_nil p0 rest)))
      (minPt (p0 :: rest) p0)
    have h₃ := length_ensurePt_le
      (ensurePt
        (withLast (strideSample (p0 :: rest) (((p0 :: rest).length + limit - 1) / limit))
          ((p0 :: rest).getLast (List.cons_ne_nil p0 rest)))
        (minPt (p0 :: rest) p0))
      (maxPt (p0 :: rest) p0)
    omega

theorem downsample_head_mem (p0 : Sample) (rest : List Sample) (limit : ℕ) :
    p0 ∈ downsample (p0 :: rest) limit := by
  by_cases h : (p0 :: rest).length ≤ limit
  · rw [downsample_eq_of_le _ _ h]
    exact List.mem_cons_self _ _
  · rw [downsample_eq_of_lt p0 rest limit (not_le.mp h)]
    refine (List.perm_insertionSort tsLE _).mem_iff.mpr ?_
    exact mem_ensurePt_of_mem _ (mem_ensurePt_of_mem _
      (mem_withLast_of_mem _ (strideSample_head p0 rest _)))

theorem downsample_last_mem (p0 : Sample) (rest : List Sample) (limit : ℕ) :
    (p0 :: rest).getLast (List.cons_ne_nil p0 rest) ∈ downsample (p0 :: rest) limit := by
  by_cases h : (p0 :: rest).length ≤ limit
  · rw [downsample_eq_of_le _ _ h]
    exact List.getLast_mem _
  · rw [downsample_eq_of_lt p0 rest limit (not_le.mp h)]
    refine (List.perm_insertionSort tsLE _).mem_iff.mpr ?_
    exact mem_ensurePt_of_mem _ (mem_ensurePt_of_mem _ (mem_withLast_self _ _))

theorem downsample_min_attained (p0 : Sample) (rest : List Sample) (limit : ℕ) :
    ∃ s ∈ downsample (p0 :: rest) limit,
      ∀ t ∈ p0 :: rest, s.price_usd ≤ t.price_usd := by
  obtain ⟨hmem, _, hall⟩ := minPt_spec (p0 :: rest) p0
  by_cases h : (p0 :: rest).length ≤ limit
  · rw [downsample_eq_of_le _ _ h]
    refine ⟨minPt (p0 :: rest) p0, ?_, hall⟩
    rcases hmem with h' | h'
    · rw [h']
      exact List.mem_cons_self _ _
    · exact h'
  · rw [downsample_eq_of_lt p0 rest limit (not_le.mp h)]
    obtain ⟨s, hs, _, hprice⟩ := ensurePt_attains
      (withLast (strideSample (p0 :: rest) (((p0 :: rest).length + limit - 1) / limit))
        ((p0 :: rest).getLast (List.cons_ne_nil p0 rest)))
      (minPt (p0 :: rest) p0)
    refine ⟨s, ?_, ?_⟩
    · exact (List.perm_insertionSort tsLE _).mem_iff.mpr (mem_ensurePt_of_mem _ hs)
    · intro t ht
      rw [hprice]
      exact hall t ht

theorem downsample_max_attained (p0 : Sample) (rest : List Sample) (limit : ℕ) :
    ∃ s ∈ downsample (p0 :: rest) limit,
      ∀ t ∈ p0 :: rest, t.price_usd ≤ s.price_usd := by
  obtain ⟨hmem, _, hall⟩ := maxPt_spec (p0 :: rest) p0
  by_cases h : (p0 :: rest).length ≤ limit
  · rw [downsample_eq_of_le _ _ h]
    refine ⟨maxPt (p0 :: rest) p0, ?_, hall⟩
    rcases hmem with h' | h'
    · rw [h']
      exact List.mem_cons_self _ _
    · exact h'
  · rw [downsample_eq_of_lt p0 rest limit (not_le.mp h)]
    obtain ⟨s, hs, _, hprice⟩ := ensurePt_attains
      (ensurePt
        (withLast (strideSample (p0 :: rest) (((p0 :: rest).length + limit - 1) / limit))
          ((p0 :: rest).getLast (List.cons_ne_nil p0 rest)))
        (minPt (p0 :: rest) p0))
      (maxPt (p0 :: rest) p0)
    refine ⟨s, ?_, ?_⟩
    · exact (List.perm_insertionSort tsLE _).mem_iff.mpr hs
    · intro t ht
      rw [hprice]
      exact hall t ht

theorem orderedInsert_filter_ts (a : Sample) (t : ℤ) : ∀ s : List Sample,
    (List.orderedInsert tsLE a s).filter (fun x => x.timestamp == t)
      = if a.timestamp = t then a :: s.filter (fun x => x.timestamp == t)
        else s.filter (fun x => x.timestamp == t) := by
  intro s
  induction s with
  | nil =>
    by_cases hat : a.timestamp = t
    · simp [List.orderedInsert, List.filter_cons, beq_iff_eq, hat]
    · simp [List.orderedInsert, List.filter_cons, beq_iff_eq, hat]
  | cons b s ih =>
    rw [List.orderedInsert]
    by_cases hab : tsLE a b
    · rw [if_pos hab]
      by_cases hat : a.timestamp = t
      · simp [List.filter_cons, beq_iff_eq, hat]
      · simp [List.filter_cons, beq_iff_eq, hat]
    · rw [if_neg hab]
      have hblt : b.timestamp < a.timestamp := lt_of_not_le hab
      rw [List.filter_cons, List.filter_cons]
      by_cases hbt : b.timestamp = t
      · have hat : ¬ a.timestamp = t := by
          intro h
          rw [h, hbt] at hblt
          exact lt_irrefl t hblt
        have hb : (b.timestamp == t) = true := beq_iff_eq.mpr hbt
        rw [hb, ih, if_neg hat, if_neg hat]
      · have hb : (b.timestamp == t) = false := beq_eq_false_iff_ne.mpr hbt
        rw [hb, ih]
        by_cases hat : a.timestamp = t
        · rw [if_pos hat, if_pos hat]
          simp
        · rw [if_neg hat, if_neg hat]

theorem insertionSort_filter_ts (l : List Sample) (t : ℤ) :
    (List.insertionSort tsLE l).filter (fun x => x.timestamp == t)
      = l.filter (fun x => x.timestamp == t) := by
  induction l with
  | nil => rfl
  | cons a l ih =>
    rw [List.insertionSort, orderedInsert_filter_ts, List.filter_cons]
    by_cases hat : a.timestamp = t
    · have ht : (a.timestamp == t) = true := beq_iff_eq.mpr hat
      rw [if_pos hat, ih, ht]
      simp
    · have ht : (a.timestamp == t) = false := beq_eq_false_iff_ne.mpr hat
      rw [if_neg hat, ih, ht]
      simp

theorem dedupLast_subset : ∀ l : List Sample, dedupLast l ⊆ l := by
  intro l
  induction l using dedupLast.induct with
  | case1 => simp [dedupLast]
  | case2 a => simp [dedupLast]
  | case3 a b rest heq ih =>
    rw [dedupLast, if_pos heq]
    exact fun x hx => List.mem_cons_of_mem a (ih hx)
  | case4 a b rest hne ih =>
    rw [dedupLast, if_neg hne]
    intro x hx
    rcases List.mem_cons.mp hx with rfl | hx
    · exact List.mem_cons_self _ _
    · exact List.mem_cons_of_mem a (ih hx)

theorem chain_head_le (b : Sample) (rest : List Sample)
    (h : List.Chain' tsLE (b :: rest)) :
    ∀ x ∈ b :: rest, b.timestamp ≤ x.timestamp := by
  intro x hx
  rcases List.mem_cons.mp hx with rfl | hx
  · exact le_refl _
  · exact (List.pairwise_cons.mp (List.chain'_iff_pairwise.mp h)).1 x hx

theorem dedupLast_chain : ∀ l : List Sample, List.Chain' tsLE l →
    List.Chain' tsLT (dedupLast l) := by
  intro l
  induction l using dedupLast.induct with
  | case1 => intro _; simp [dedupLast]
  | case2 a => intro _; simp [dedupLast]
  | case3 a b rest heq ih =>
    intro h
    rw [dedupLast, if_pos heq]
    exact ih ((List.chain'_cons'.mp h).2)
  | case4 a b rest hne ih =>
    intro h
    have htail : List.Chain' tsLE (b :: rest) := (List.chain'_cons'.mp h).2
    have hab : a.timestamp ≤ b.timestamp := (List.chain'_cons.mp h).1
    have halt : a.timestamp < b.timestamp := lt_of_le_of_ne hab hne
    rw [dedupLast, if_neg hne]
    refine List.chain'_cons'.mpr ⟨?_, ih htail⟩
    intro y hy
    have hymem : y ∈ b :: rest := dedupLast_subset _ (List.mem_of_mem_head? hy)
    exact lt_of_lt_of_le halt (chain_head_le b rest htail y hymem)

theorem getLast?_cons_of_ne_nil {l : List Sample} (a : Sample) (h : l ≠ []) :
    (a :: l).getLast? = l.getLast? := by
  cases l with
  | nil => exact absurd rfl h
  | cons b t => exact List.getLast?_cons_cons

theorem dedupLast_eq_self : ∀ l : List Sample,
    List.Chain' tsLT l → dedupLast l = l := by
  intro l
  induction l using dedupLast.induct with
  | case1 => intro _; rfl
  | case2 a => intro _; rfl
  | case3 a b rest heq ih =>
    intro h
    have hlt : tsLT a b := (List.chain'_cons.mp h).1
    unfold tsLT at hlt
    omega
  | case4 a b rest hne ih =>
    intro h
    rw [dedupLast, if_neg hne, ih (List.chain'_cons.mp h).2]

theorem dedupLast_getLast : ∀ l : List Sample, List.Chain' tsLE l →
    ∀ x ∈ dedupLast l,
      (l.filter (fun s => s.timestamp == x.timestamp)).getLast? = some x := by
  intro l
  induction l using dedupLast.induct with
  | case1 =>
    intro _ x hx
    cases hx
  | case2 a =>
    intro _ x hx
    have hxa : x = a := List.mem_singleton.mp (by simpa [dedupLast] using hx)
    subst hxa
    rw [List.filter_cons_of_pos (p := fun s : Sample => s.timestamp == x.timestamp) (beq_self_eq_true _)]
    rfl
  | case3 a b rest heq ih =>
    intro h x hx
    rw [dedupLast, if_pos heq] at hx
    have htail : List.Chain' tsLE (b :: rest) := (List.chain'_cons'.mp h).2
    have IH := ih htail x hx
    by_cases hat : a.timestamp = x.timestamp
    · rw [List.filter_cons_of_pos (p := fun s : Sample => s.timestamp == x.timestamp) (beq_iff_eq.mpr hat)]
      have hbmem : b ∈ List.filter (fun s => s.timestamp == x.timestamp) (b :: rest) := by
        apply List.mem_filter.mpr
        refine ⟨List.mem_cons_self _ _, ?_⟩
        exact beq_iff_eq.mpr (by rw [← heq, hat])
      have hnil : List.filter (fun s => s.timestamp == x.timestamp) (b :: rest) ≠ [] :=
        fun hnil => by rw [hnil] at hbmem; cases hbmem
      rw [getLast?_cons_of_ne_nil a hnil]
      exact IH
    · rw [List.filter_cons_of_neg (p := fun s : Sample => s.timestamp == x.timestamp) (by simp [beq_iff_eq, hat])]
      exact IH
  | case4 a b rest hne ih =>
    intro h x hx
    have htail : List.Chain' tsLE (b :: rest) := (List.chain'_cons'.mp h).2
    have hab : a.timestamp ≤ b.timestamp := (List.chain'_cons.mp h).1
    have halt : a.timestamp < b.timestamp := lt_of_le_of_ne hab hne
    rw [dedupLast, if_neg hne] at hx
    rcases List.mem_cons.mp hx with rfl | hx
    · rw [List.filter_cons_of_pos (p := fun s : Sample => s.timestamp == x.timestamp) (beq_self_eq_true _)]
      have hrest : List.filter (fun s => s.timestamp == x.timestamp) (b :: rest) = [] := by
        apply List.filter_eq_nil_iff.mpr
        intro y hy
        have : x.timestamp < y.timestamp :=
          lt_of_lt_of_le halt (chain_head_le b rest htail y hy)
        simp only [beq_iff_eq]
        omega
      rw [hrest]
      rfl
    · have hxmem : x ∈ b :: rest := dedupLast_subset _ hx
      have hxts : a.timestamp < x.timestamp :=
        lt_of_lt_of_le halt (chain_head_le b rest htail x hxmem)
      have hat : ¬ a.timestamp = x.timestamp := by omega
      rw [List.filter_cons_of_neg (p := fun s : Sample => s.timestamp == x.timestamp) (by simp [beq_iff_eq, hat])]
      exact ih htail x hx

theorem normalizePointsList_chain (R : List JSVal) :
    List.Chain' tsLT (normalizePointsList R) := by
  unfold normalizePointsList
  apply dedupLast_chain
  exact List.chain'_iff_pairwise.mpr (List.sorted_insertionSort tsLE _)

theorem normalizePointsList_lastWins (R : List JSVal) (x : Sample)
    (hx : x ∈ normalizePointsList R) :
    ((R.filterMap normalizePoint).filter
        (fun s => s.timestamp == x.timestamp)).getLast? = some x := by
  unfold normalizePointsList at hx
  have h := dedupLast_getLast _
    (List.chain'_iff_pairwise.mpr (List.sorted_insertionSort tsLE _)) x hx
  rw [insertionSort_filter_ts] at h
  exact h

theorem chain_lt_sorted (l : List Sample) (h : List.Chain' tsLT l) :
    List.Sorted tsLE l := by
  have hp := List.chain'_iff_pairwise.mp h
  exact hp.imp (fun hab => le_of_lt hab)

theorem jsRound_intCast (n : ℤ) : jsRound (n : ℚ) = n := by
  unfold jsRound
  rw [Int.floor_eq_iff]
  constructor
  · linarith
  · linarith

theorem normalizeTimestampNum_intCast (n : ℤ) (h : (10 : ℚ) ^ 10 < (n : ℚ)) :
    normalizeTimestampNum (n : ℚ) = n := by
  unfold normalizeTimestampNum
  split_ifs with h1 h2
  · exact jsRound_intCast n
  · exact jsRound_intCast n
  · exact jsRound_intCast n

theorem normalizePoint_toJS (s : Sample) (h : (10 : ℚ) ^ 10 < (s.timestamp : ℚ)) :
    normalizePoint (Sample.toJS s) = some s := by
  have hdef : normalizePoint (Sample.toJS s)
      = some ⟨normalizeTimestampNum (s.timestamp : ℚ), s.price_usd⟩ := rfl
  rw [hdef, normalizeTimestampNum_intCast _ h]

theorem filterMap_normalizePoint_toJS (l : List Sample)
    (h : ∀ s ∈ l, (10 : ℚ) ^ 10 < (s.timestamp : ℚ)) :
    (l.map Sample.toJS).filterMap normalizePoint = l := by
  induction l with
  | nil => rfl
  | cons a l ih =>
    rw [List.map_cons, List.filterMap_cons,
      normalizePoint_toJS a (h a (List.mem_cons_self _ _)),
      ih (fun s hs => h s (List.mem_cons_of_mem _ hs))]

/-- C1, counterexample: the claim puts the seconds/milliseconds split at
1e9, but at the finite numeric input 2·10⁹ — greater than 1e9 — the
classifier lands in its `> 1e9` branch, which scales by 1000 exactly like
the else branch, so the result is round(v·1000) = 2·10¹² and not the
round(v) = 2·10⁹ the claim predicts. -/
theorem normalizeTimestamp_threshold_cex :
    (10 : ℚ) ^ 9 < 2 * 10 ^ 9 ∧
      normalizeTimestamp (JSVal.num (2 * 10 ^ 9)) ≠ some (jsRound (2 * 10 ^ 9)) ∧
      normalizeTimestamp (JSVal.num (2 * 10 ^ 9)) = some (2 * 10 ^ 12) := by
  refine ⟨by norm_num, ?_, ?_⟩
  · decide
  · decide

/-- C1, amended: for every finite numeric timestamp input v the classifier
collapses to a two-way split at 1e10 (not 1e9): above 1e10 the value is
treated as milliseconds and returned as round(v); at or below 1e10 it is
treated as seconds and returned as round(v·1000). -/
theorem normalizeTimestamp_magnitude_split (v : ℚ) :
    ((10 : ℚ) ^ 10 < v → normalizeTimestamp (JSVal.num v) = some (jsRound v)) ∧
    (v ≤ (10 : ℚ) ^ 10 → normalizeTimestamp (JSVal.num v) = some (jsRound (v * 1000))) := by
  constructor
  · intro h
    show some (normalizeTimestampNum v) = _
    unfold normalizeTimestampNum
    split_ifs <;> rfl
  · intro h
    show some (normalizeTimestampNum v) = _
    unfold normalizeTimestampNum
    split_ifs <;> first | rfl | linarith

/-- C1, witness: the seconds-magnitude input 1700000000 is scaled to
1700000000000 and the milliseconds-magnitude input 2·10¹² is returned
unchanged. -/
theorem normalizeTimestamp_magnitude_split_witness :
    normalizeTimestamp (JSVal.num 1700000000) = some 1700000000000 ∧
    normalizeTimestamp (JSVal.num (2 * 10 ^ 12)) = some (2 * 10 ^ 12) := by
  constructor
  · rw [(normalizeTimestamp_magnitude_split 1700000000).2 (by norm_num)]
    decide
  · rw [(normalizeTimestamp_magnitude_split (2 * 10 ^ 12)).1 (by norm_num)]
    decide

/-- C10: an empty string is not rejected: `Number("")` is 0, so
`normalizeTimestamp("")` is 0 and `normalizePrice("")` is 0, and the raw
record `["", ""]` normalizes to the sample with timestamp 0 and price 0
instead of being dropped. -/
theorem empty_string_coerces_to_zero :
    normalizeTimestamp (JSVal.str "") = some 0 ∧
    normalizePrice (JSVal.str "") = some 0 ∧
    normalizePoint (JSVal.arr [JSVal.str "", JSVal.str ""]) = some ⟨0, 0⟩ := by
  refine ⟨?_, ?_, ?_⟩
  · decide
  · decide
  · decide

/-- C2: for every non-empty series sorted strictly ascending by timestamp
and every positive limit, `downsample` keeps the first sample, the true
last sample, a sample attaining the global minimum price and a sample
attaining the global maximum price, and when the series is longer than
`limit` the output has at most `limit + 3` samples. -/
theorem downsample_guarantees (p0 : Sample) (rest : List Sample) (limit : ℕ)
    (hsorted : List.Chain' tsLT (p0 :: rest)) (hlim : 1 ≤ limit) :
    p0 ∈ downsample (p0 :: rest) limit ∧
    (p0 :: rest).getLast (List.cons_ne_nil p0 rest) ∈ downsample (p0 :: rest) limit ∧
    (∃ s ∈ downsample (p0 :: rest) limit, ∀ t ∈ p0 :: rest, s.price_usd ≤ t.price_usd) ∧
    (∃ s ∈ downsample (p0 :: rest) limit, ∀ t ∈ p0 :: rest, t.price_usd ≤ s.price_usd) ∧
    (limit < (p0 :: rest).length → (downsample (p0 :: rest) limit).length ≤ limit + 3) :=
  ⟨downsample_head_mem p0 rest limit, downsample_last_mem p0 rest limit,
   downsample_min_attained p0 rest limit, downsample_max_attained p0 rest limit,
   fun hlt => downsample_length_le _ limit hlim hlt⟩

/-- C2, witness: the guarantees instantiated on a concrete 5-sample series
with limit 2. -/
theorem downsample_guarantees_witness :
    (⟨0, 5⟩ : Sample) ∈ downsample [⟨0, 5⟩, ⟨1, 0⟩, ⟨2, 9⟩, ⟨3, 5⟩, ⟨4, 5⟩] 2 ∧
    (⟨4, 5⟩ : Sample) ∈ downsample [⟨0, 5⟩, ⟨1, 0⟩, ⟨2, 9⟩, ⟨3, 5⟩, ⟨4, 5⟩] 2 ∧
    (∃ s ∈ downsample [⟨0, 5⟩, ⟨1, 0⟩, ⟨2, 9⟩, ⟨3, 5⟩, ⟨4, 5⟩] 2,
      ∀ t ∈ ([⟨0, 5⟩, ⟨1, 0⟩, ⟨2, 9⟩, ⟨3, 5⟩, ⟨4, 5⟩] : List Sample),
        s.price_usd ≤ t.price_usd) ∧
    (∃ s ∈ downsample [⟨0, 5⟩, ⟨1, 0⟩, ⟨2, 9⟩, ⟨3, 5⟩, ⟨4, 5⟩] 2,
      ∀ t ∈ ([⟨0, 5⟩, ⟨1, 0⟩, ⟨2, 9⟩, ⟨3, 5⟩, ⟨4, 5⟩] : List Sample),
        t.price_usd ≤ s.price_usd) ∧
    (2 < ([⟨0, 5⟩, ⟨1, 0⟩, ⟨2, 9⟩, ⟨3, 5⟩, ⟨4, 5⟩] : List Sample).length →
      (downsample [⟨0, 5⟩, ⟨1, 0⟩, ⟨2, 9⟩, ⟨3, 5⟩, ⟨4, 5⟩] 2).length ≤ 2 + 3) :=
  downsample_guarantees ⟨0, 5⟩ [⟨1, 0⟩, ⟨2, 9⟩, ⟨3, 5⟩, ⟨4, 5⟩] 2
    (by simp [List.chain'_cons, tsLT]) (by decide)

/-- C3, counterexample: on the 5-sample series with prices 5, 0, 9, 5, 5 at
timestamps 0..4 and limit 2, `downsample` returns all 5 samples (stride
picks indices 0 and 3, then the last sample and the min and max samples
are appended), so its length exceeds the claimed bound max(limit, 3) = 3. -/
theorem downsample_bound_cex :
    1 ≤ 2 ∧
    2 < ([⟨0, 5⟩, ⟨1, 0⟩, ⟨2, 9⟩, ⟨3, 5⟩, ⟨4, 5⟩] : List Sample).length ∧
    (downsample [⟨0, 5⟩, ⟨1, 0⟩, ⟨2, 9⟩, ⟨3, 5⟩, ⟨4, 5⟩] 2).length = 5 ∧
    ¬ ((downsample [⟨0, 5⟩, ⟨1, 0⟩, ⟨2, 9⟩, ⟨3, 5⟩, ⟨4, 5⟩] 2).length ≤ max 2 3) := by
  refine ⟨by decide, by decide, by decide, by decide⟩

/-- C3, amended: for every series and limit ≥ 1, the output of `downsample`
has at most `limit + 3` samples when the series is longer than `limit`
(the bound max(limit, 3) of the claim is too small), and the series is
returned unchanged when its length is within `limit`. -/
theorem downsample_bound (S : List Sample) (limit : ℕ) (hlim : 1 ≤ limit) :
    (limit < S.length → (downsample S limit).length ≤ limit + 3) ∧
    (S.length ≤ limit → downsample S limit = S) :=
  ⟨fun h => downsample_length_le S limit hlim h,
   fun h => downsample_eq_of_le S limit h⟩

/-- C3, witness: the amended bound instantiated on the 5-sample series with
limit 2. -/
theorem downsample_bound_witness :
    (downsample [⟨0, 5⟩, ⟨1, 0⟩, ⟨2, 9⟩, ⟨3, 5⟩, ⟨4, 5⟩] 2).length ≤ 2 + 3 :=
  (downsample_bound [⟨0, 5⟩, ⟨1, 0⟩, ⟨2, 9⟩, ⟨3, 5⟩, ⟨4, 5⟩] 2 (by decide)).1 (by decide)

/-- C4: every series produced by `normalizePoints` is strictly ascending by
timestamp (no two samples share a timestamp), and each retained sample is
exactly the last record, in input order, among those coercing to its
timestamp — so when two records coerce to the same timestamp with
different prices, the later one's price wins. -/
theorem normalizePoints_sorted_lastWins (R : List JSVal) :
    List.Chain' tsLT (normalizePoints (JSVal.arr R)) ∧
    ∀ x ∈ normalizePoints (JSVal.arr R),
      ((R.filterMap normalizePoint).filter
        (fun s => s.timestamp == x.timestamp)).getLast? = some x :=
  ⟨normalizePointsList_chain R, fun x hx => normalizePointsList_lastWins R x hx⟩

/-- C4, witness: two records at the same timestamp, prices 7 then 9; the
kept sample at timestamp 1000 is the later record's, with price 9. -/
theorem normalizePoints_sorted_lastWins_witness :
    (([JSVal.arr [JSVal.num 1, JSVal.num 7],
        JSVal.arr [JSVal.num 1, JSVal.num 9]].filterMap normalizePoint).filter
      (fun s => s.timestamp == (1000 : ℤ))).getLast? = some ⟨1000, 9⟩ :=
  (normalizePoints_sorted_lastWins
    [JSVal.arr [JSVal.num 1, JSVal.num 7], JSVal.arr [JSVal.num 1, JSVal.num 9]]).2
    ⟨1000, 9⟩ (by decide)

/-- C5, counterexample: for the raw collection [[1, 1]], `normalizePoints`
yields the single sample (timestamp 1000, price 1); feeding that series
back through `normalizePoints` re-classifies 1000 as seconds and scales it
to 1000000, so the result differs and `normalizePoints` is not idempotent
as claimed. -/
theorem normalizePoints_idempotent_cex :
    normalizePoints (JSVal.arr
        ((normalizePoints (JSVal.arr [JSVal.arr [JSVal.num 1, JSVal.num 1]])).map
          Sample.toJS))
      ≠ normalizePoints (JSVal.arr [JSVal.arr [JSVal.num 1, JSVal.num 1]]) ∧
    normalizePoints (JSVal.arr [JSVal.arr [JSVal.num 1, JSVal.num 1]]) = [⟨1000, 1⟩] ∧
    normalizePoints (JSVal.arr
        ((normalizePoints (JSVal.arr [JSVal.arr [JSVal.num 1, JSVal.num 1]])).map
          Sample.toJS))
      = [⟨1000000, 1⟩] := by
  refine ⟨by decide, by decide, by decide⟩

/-- C5, amended: `normalizePoints` is idempotent on every raw collection
whose normalized timestamps all exceed 1e10 (epoch milliseconds after
1970-04-26, the re-normalization threshold): re-normalizing the produced
series returns it unchanged. -/
theorem normalizePoints_idempotent (R : List JSVal)
    (h : ∀ s ∈ normalizePoints (JSVal.arr R), (10 : ℚ) ^ 10 < (s.timestamp : ℚ)) :
    normalizePoints (JSVal.arr ((normalizePoints (JSVal.arr R)).map Sample.toJS))
      = normalizePoints (JSVal.arr R) := by
  have hchain := normalizePointsList_chain R
  show dedupLast (List.insertionSort tsLE
    (((normalizePointsList R).map Sample.toJS).filterMap normalizePoint))
      = normalizePointsList R
  rw [filterMap_normalizePoint_toJS (normalizePointsList R) (fun s hs => h s hs),
    (chain_lt_sorted _ hchain).insertionSort_eq,
    dedupLast_eq_self _ hchain]

/-- C5, witness: idempotence on the collection [[2·10¹², 5]], whose
normalized timestamp 2·10¹² exceeds 1e10. -/
theorem normalizePoints_idempotent_witness :
    normalizePoints (JSVal.arr
        ((normalizePoints (JSVal.arr [JSVal.arr [JSVal.num (2 * 10 ^ 12), JSVal.num 5]])).map
          Sample.toJS))
      = normalizePoints (JSVal.arr [JSVal.arr [JSVal.num (2 * 10 ^ 12), JSVal.num 5]]) :=
  normalizePoints_idempotent [JSVal.arr [JSVal.num (2 * 10 ^ 12), JSVal.num 5]] (by decide)

/-- C6: the time-window filter returns the series unchanged when `windowMs`
is unbounded; for a bounded window it anchors at the last sample's
timestamp when the series is non-empty (and at the current wall-clock time
otherwise, where it returns the empty series either way) and keeps exactly
the samples with timestamp ≥ anchor − windowMs, preserving their order. -/
theorem applyTimeWindow_spec (now : ℤ) (points : List Sample) :
    applyTimeWindow now points none = points ∧
    ∀ w : ℚ, applyTimeWindow now points (some w) =
      points.filter (fun p =>
        decide ((((match points.getLast? with
          | some s => s.timestamp
          | none => now) : ℤ) : ℚ) - w ≤ (p.timestamp : ℚ))) := by
  constructor
  · unfold applyTimeWindow
    split
    · rfl
    · rfl
  · intro w
    unfold applyTimeWindow
    by_cases hemp : points.isEmpty
    · rw [if_pos hemp]
      rw [List.isEmpty_iff.mp hemp]
      rfl
    · rw [if_neg hemp]

/-- C7: for every cache-backed timeframe key, the handler normalizes the
cached collection, windows it by the timeframe's `windowMs` with the
dataset-relative anchor, and downsamples to the timeframe's limit — with
the windowed series replaced by the limit-sized tail of the full
normalized series whenever it holds fewer than 2 samples. -/
theorem chartDataHandler_spec (now : ℤ) (cached : List JSVal) (tf : String)
    (cfg : TimeframeConfig) (hcfg : TIMEFRAME_CONFIG tf = some cfg)
    (hpos : 0 < cfg.limit) :
    ((applyTimeWindow now (normalizePointsList cached) cfg.windowMs).length < 2 →
      chartDataHandler now cached tf = some (downsample
        ((normalizePointsList cached).drop
          ((normalizePointsList cached).length
            - min cfg.limit (normalizePointsList cached).length))
        cfg.limit)) ∧
    (2 ≤ (applyTimeWindow now (normalizePointsList cached) cfg.windowMs).length →
      chartDataHandler now cached tf = some (downsample
        (applyTimeWindow now (normalizePointsList cached) cfg.windowMs) cfg.limit)) := by
  unfold chartDataHandler
  rw [hcfg]
  simp only [if_pos hpos]
  constructor
  · intro hlt
    rw [if_pos hlt]
  · intro hge
    rw [if_neg (not_lt.mpr hge)]

/-- C7, witness: the handler on the 1h timeframe over a two-record cache
whose samples both fall inside the window. -/
theorem chartDataHandler_spec_witness :
    chartDataHandler 0 [JSVal.arr [JSVal.num 17000, JSVal.num 3],
        JSVal.arr [JSVal.num 17001, JSVal.num 4]] "1h"
      = some (downsample
          (applyTimeWindow 0
            (normalizePointsList [JSVal.arr [JSVal.num 17000, JSVal.num 3],
              JSVal.arr [JSVal.num 17001, JSVal.num 4]])
            (some 3600000))
          120) :=
  (chartDataHandler_spec 0
    [JSVal.arr [JSVal.num 17000, JSVal.num 3], JSVal.arr [JSVal.num 17001, JSVal.num 4]]
    "1h" ⟨some 3600000, 120⟩ (by decide) (by decide)).2 (by decide)

/-- C8: a failed read-or-parse attempt leaves the memo slot cleared — so
the next call starts a fresh load — and rethrows the wrapped failure to
the caller; a successful attempt whose parsed document is not an array
yields the empty collection. -/
theorem loadLongTermData_spec :
    (∀ e : String, loadLongTermData none (.error e)
      = (none, .error ("Failed to load historical cache: " ++ e))) ∧
    (∀ v : JSVal, isArr v = false →
      loadLongTermData none (.ok v) = (some v, .ok [])) := by
  constructor
  · intro e
    rfl
  · intro v hv
    cases v <;> first | rfl | simp [isArr] at hv

/-- C8, witness: a concrete failing attempt and a concrete non-array
document. -/
theorem loadLongTermData_spec_witness :
    loadLongTermData none (.error "ENOENT")
      = (none, .error "Failed to load historical cache: ENOENT") ∧
    loadLongTermData none (.ok (JSVal.obj []))
      = (some (JSVal.obj []), .ok []) :=
  ⟨loadLongTermData_spec.1 "ENOENT", loadLongTermData_spec.2 (JSVal.obj []) rfl⟩

/-- C9, counterexample: the keyed record with a single field
`value = [2·10¹², 5]` has a value pair normalizing to a valid sample and
direct aliases yielding none, yet `normalizePoint` rejects it with `null`:
the recursion into `value` additionally requires the alias-derived
timestamp to be finite, and here it is NaN. -/
theorem normalizePoint_value_recursion_cex :
    normalizePointArr [JSVal.num (2 * 10 ^ 12), JSVal.num 5] = some ⟨2 * 10 ^ 12, 5⟩ ∧
    normalizeTimestamp
      (tsAlias [("value", JSVal.arr [JSVal.num (2 * 10 ^ 12), JSVal.num 5])]) = none ∧
    normalizePrice
      (priceAlias [("value", JSVal.arr [JSVal.num (2 * 10 ^ 12), JSVal.num 5])]) = none ∧
    normalizePoint
      (JSVal.obj [("value", JSVal.arr [JSVal.num (2 * 10 ^ 12), JSVal.num 5])]) = none := by
  refine ⟨by decide, by decide, by decide, by decide⟩

/-- C9, amended: for a keyed record whose `value` field is a pair that
normalizes to a valid sample, whenever the alias-derived timestamp is
finite but the alias-derived price is not (so the direct aliases do not
yield a sample), `normalizePoint` returns the recursive normalization of
the pair. -/
theorem normalizePoint_value_recursion (fields : List (String × JSVal)) (t : ℤ)
    (inner : List JSVal) (s : Sample)
    (hts : normalizeTimestamp (tsAlias fields) = some t)
    (hprice : normalizePrice (priceAlias fields) = none)
    (hvalue : getField fields "value" = JSVal.arr inner)
    (hinner : normalizePointArr inner = some s) :
    normalizePoint (JSVal.obj fields) = some s := by
  simp only [normalizePoint]
  rw [if_neg (by simp [truthy])]
  rw [hts, hprice, hvalue]
  exact hinner

/-- C9, witness: the record with a finite timestamp alias and a pair-valued
`value` field normalizes to the pair's sample. -/
theorem normalizePoint_value_recursion_witness :
    normalizePoint (JSVal.obj [("timestamp", JSVal.num 1),
        ("value", JSVal.arr [JSVal.num 2, JSVal.num 5])])
      = some ⟨2000, 5⟩ :=
  normalizePoint_value_recursion
    [("timestamp", JSVal.num 1), ("value", JSVal.arr [JSVal.num 2, JSVal.num 5])]
    1000 [JSVal.num 2, JSVal.num 5] ⟨2000, 5⟩ (by decide) (by decide) rfl (by decide)
